import Mathlib

/-!
Verification of the deterministic structural hash of
`internal/coreinternal/pdatautil/hash.go`: the canonical encoder for
`pcommon.Value`/`pcommon.Map` attribute values and the 128-bit widening of the
64-bit XXH64 streaming hash.

Modelling conventions (shallow embedding):
* Go byte slices and strings are `List Nat`, each element a byte value.
* `pcommon.Value` is the inductive `Value` below; a `float64` is carried as its
  64-bit IEEE-754 bit pattern (the code only ever uses `math.Float64bits`),
  an `int64` is carried as an `Int` (the code converts through `uint64`,
  modelled by reduction mod 2^64).
* `pcommon.Map` is its underlying list of key/value entries in insertion
  order; `Map.Range` iterates in that order and `Map.Get` returns the first
  entry with a matching key.
* The xxhash accumulator state is the list of bytes fed since `Reset`;
  `Write` appends, and `Sum`/`Sum64` computes XXH64 (seed 0) of those bytes
  (the library's streaming digest of a byte sequence equals the one-shot
  hash of the concatenation).
* The `keysBuf` field models the contents of the backing array of the
  `keysBuf` slice, because `writeMapHash` truncates and refills that array
  in place while an enclosing key loop may still be reading it (see
  `hashWriter` below); a run that panics -- `v.Type()` on the invalid
  `Value` a missed `Map.Get` returns -- is modelled as `none`, so the
  fallible writer functions and entry points return `Option`.
-/

/-! ### Marker bytes (hash.go lines 28-42) -/

def extraByte : Nat := 0xf3
def keyPrefix : Nat := 0xf4
def valEmpty : Nat := 0xf5
def valBytesPrefix : Nat := 0xf6
def valStrPrefix : Nat := 0xf7
def valBoolTrue : Nat := 0xf8
def valBoolFalse : Nat := 0xf9
def valIntPrefix : Nat := 0xfa
def valDoublePrefix : Nat := 0xfb
def valMapPrefix : Nat := 0xfc
def valMapSuffix : Nat := 0xfd
def valSlicePrefix : Nat := 0xfe
def valSliceSuffix : Nat := 0xff

attribute [simp] extraByte keyPrefix valEmpty valBytesPrefix valStrPrefix valBoolTrue
attribute [simp] valBoolFalse valIntPrefix valDoublePrefix valMapPrefix valMapSuffix
attribute [simp] valSlicePrefix valSliceSuffix

/-! ### The value model -/

/-- A byte string: a Go `string` or `[]byte`, as its list of byte values. -/
abbrev ByteStr := List Nat

/-- `pcommon.Value`. The first eight constructors are the eight recognized
`pcommon.ValueType` cases. The extra constructor `unknown` models a value
whose type matches none of the eight cases of the `switch` in
`writeValueHash` (a hypothetical future addition to the value union), for
which the `switch` falls through writing nothing. A map value carries its
entry list in insertion order. -/
inductive Value where
  | empty : Value
  | bool : Bool → Value
  | int : Int → Value
  | double : Nat → Value
  | str : ByteStr → Value
  | bytes : ByteStr → Value
  | slice : List Value → Value
  | map : List (ByteStr × Value) → Value
  | unknown : Value

/-- `pcommon.Map.Get`: scan for the first entry whose key matches; a missing
key yields the zero value, whose type is Empty. -/
def lookupV (k : ByteStr) : List (ByteStr × Value) → Value
  | [] => .empty
  | e :: es => if e.1 = k then e.2 else lookupV k es

/-- `sort.Strings` on raw byte strings: ascending byte-wise lexicographic
order (Go string comparison).  Go's sort is unstable, but the output list of a
comparison sort is determined by the input multiset and the total order, so
insertion sort is an exact model. -/
def sortKeys (ks : List ByteStr) : List ByteStr :=
  ks.insertionSort (· ≤ ·)

/-! ### XXH64 (the `github.com/cespare/xxhash/v2` dependency, seed 0) -/

def prime1 : Nat := 11400714785074694791
def prime2 : Nat := 14029467366897019727
def prime3 : Nat := 1609587929392839161
def prime4 : Nat := 9650029242287828579
def prime5 : Nat := 2870177450012600261

/-- Reduce modulo 2^64 (Go's wrapping `uint64` arithmetic). -/
def mod64 (x : Nat) : Nat := x % 18446744073709551616

/-- 64-bit rotate left of `x < 2^64` by `r` (`0 < r < 64`). -/
def rotl64 (x r : Nat) : Nat := mod64 ((x <<< r) ||| (x >>> (64 - r)))

def round64 (acc input : Nat) : Nat :=
  mod64 (rotl64 (mod64 (acc + input * prime2)) 31 * prime1)

def mergeRound64 (h v : Nat) : Nat :=
  mod64 ((h ^^^ round64 0 v) * prime1 + prime4)

/-- `binary.LittleEndian.Uint64` of the first 8 bytes. -/
def u64le (b : List Nat) : Nat :=
  List.foldr (fun x acc => x + 256 * acc) 0 (b.take 8)

/-- `binary.LittleEndian.Uint32` of the first 4 bytes. -/
def u32le (b : List Nat) : Nat :=
  List.foldr (fun x acc => x + 256 * acc) 0 (b.take 4)

/-- One 32-byte stripe of the XXH64 bulk loop. -/
def stripe (v : Nat × Nat × Nat × Nat) (b : List Nat) : Nat × Nat × Nat × Nat :=
  (round64 v.1 (u64le b), round64 v.2.1 (u64le (b.drop 8)),
   round64 v.2.2.1 (u64le (b.drop 16)), round64 v.2.2.2 (u64le (b.drop 24)))

/-- Run `n` 32-byte stripes, returning the accumulators and the remainder. -/
def stripes : Nat → Nat × Nat × Nat × Nat → List Nat → (Nat × Nat × Nat × Nat) × List Nat
  | 0, v, b => (v, b)
  | n + 1, v, b => stripes n (stripe v (b.take 32)) (b.drop 32)

/-- Run `n` 8-byte steps of the XXH64 tail. -/
def eat8 : Nat → Nat → List Nat → Nat × List Nat
  | 0, h, b => (h, b)
  | n + 1, h, b =>
      eat8 n (mod64 (rotl64 (h ^^^ round64 0 (u64le b)) 27 * prime1 + prime4)) (b.drop 8)

/-- The 4-byte step of the XXH64 tail, when at least 4 bytes remain. -/
def eat4 (h : Nat) (b : List Nat) : Nat × List Nat :=
  if b.length < 4 then (h, b)
  else (mod64 (rotl64 (h ^^^ mod64 (u32le b * prime1)) 23 * prime2 + prime3), b.drop 4)

/-- The byte steps of the XXH64 tail. -/
def eat1 (h : Nat) (b : List Nat) : Nat :=
  b.foldl (fun a x => mod64 (rotl64 (a ^^^ mod64 (x * prime5)) 11 * prime1)) h

/-- The XXH64 avalanche finalizer. -/
def avalanche (h : Nat) : Nat :=
  let h1 := mod64 ((h ^^^ (h >>> 33)) * prime2)
  let h2 := mod64 ((h1 ^^^ (h1 >>> 29)) * prime3)
  h2 ^^^ (h2 >>> 32)

/-- XXH64 with seed 0 of a byte sequence. -/
def xxh64 (b : List Nat) : Nat :=
  let n := b.length
  let hr :=
    if 32 ≤ n then
      let sr := stripes (n / 32) (mod64 (prime1 + prime2), prime2, 0, 18446744073709551616 - prime1) b
      let v1 := sr.1.1
      let v2 := sr.1.2.1
      let v3 := sr.1.2.2.1
      let v4 := sr.1.2.2.2
      let h0 := mod64 (rotl64 v1 1 + rotl64 v2 7 + rotl64 v3 12 + rotl64 v4 18)
      (mergeRound64 (mergeRound64 (mergeRound64 (mergeRound64 h0 v1) v2) v3) v4, sr.2)
    else (prime5, b)
  let h1 := mod64 (hr.1 + n)
  let er := eat8 (hr.2.length / 8) h1 hr.2
  let fr := eat4 er.1 er.2
  avalanche (eat1 fr.1 fr.2)

/-- The 8 bytes `xxhash.Digest.Sum` appends: the current `Sum64`, big-endian. -/
def be64 (x : Nat) : List Nat :=
  [(x >>> 56) % 256, (x >>> 48) % 256, (x >>> 40) % 256, (x >>> 32) % 256,
   (x >>> 24) % 256, (x >>> 16) % 256, (x >>> 8) % 256, x % 256]

/-- `binary.LittleEndian.PutUint64` into an 8-byte buffer. -/
def le64 (x : Nat) : List Nat :=
  [x % 256, (x >>> 8) % 256, (x >>> 16) % 256, (x >>> 24) % 256,
   (x >>> 32) % 256, (x >>> 40) % 256, (x >>> 48) % 256, (x >>> 56) % 256]

/-- `uint64(i)` for an `int64` value: two's complement, i.e. reduction mod 2^64. -/
def toUint64 (i : Int) : Nat := (i % 18446744073709551616).toNat

/-- `sizeOf` of a first-match lookup never exceeds `sizeOf` of the entry list. -/
theorem sizeOf_lookupV (k : ByteStr) (m : List (ByteStr × Value)) :
    sizeOf (lookupV k m) ≤ sizeOf m := by
  induction m with
  | nil => simp [lookupV]
  | cons e es ih =>
      by_cases he : e.1 = k
      · simp only [lookupV, if_pos he]
        cases e with
        | mk a b => simp; omega
      · simp only [lookupV, if_neg he]
        cases e with
        | mk a b => simp; omega

/-- Build a lexicographic comparison of measure triples from component
comparisons. -/
theorem lex3_of (a1 b1 c1 a2 b2 c2 : Nat)
    (h : a1 < a2 ∨ (a1 = a2 ∧ (b1 < b2 ∨ (b1 = b2 ∧ c1 < c2)))) :
    Prod.Lex (fun x y => x < y) (Prod.Lex (fun x y => x < y) (fun x y => x < y))
      (a1, b1, c1) (a2, b2, c2) := by
  rcases h with h | ⟨h1, h⟩
  · exact Prod.Lex.left _ _ h
  · subst h1
    rcases h with h | ⟨h2, h⟩
    · exact Prod.Lex.right _ (Prod.Lex.left _ _ h)
    · subst h2
      exact Prod.Lex.right _ (Prod.Lex.right _ h)

/-! ### The canonical byte streams -/

mutual

/-- The canonical stream of one value: the intended contract of
`writeValueHash` (hash.go lines 108-143), one arm per `case` of the
`switch`; `unknown` is the implicit empty `default`. -/
def valueStream : Value → List Nat
  | .str s => valStrPrefix :: s
  | .bool b => if b then [valBoolTrue] else [valBoolFalse]
  | .int i => valIntPrefix :: le64 (toUint64 i)
  | .double bits => valDoublePrefix :: le64 bits
  | .map m => valMapPrefix :: (loopStream (sortKeys (m.map Prod.fst)) m ++ [valMapSuffix])
  | .slice xs => valSlicePrefix :: (sliceStream xs ++ [valSliceSuffix])
  | .bytes bs => valBytesPrefix :: bs
  | .empty => [valEmpty]
  | .unknown => []
termination_by v => (sizeOf v, 2, 0)
decreasing_by
  all_goals
    simp_wf
    apply lex3_of
    omega

/-- The canonical stream of the key loop of `writeMapHash` (hash.go lines
92-99) over an intact key list: per key the key marker, the raw key bytes,
then the first value stored under the key. -/
def loopStream (ks : List ByteStr) (m : List (ByteStr × Value)) : List Nat :=
  match ks with
  | [] => []
  | k :: ks1 => (keyPrefix :: k) ++ (valueStream (lookupV k m) ++ loopStream ks1 m)
termination_by (sizeOf m + 1, 0, ks.length)
decreasing_by
  all_goals
    simp_wf
    apply lex3_of
    have hlk := sizeOf_lookupV k m
    omega

/-- The canonical stream of `writeSliceHash` (hash.go lines 102-106): the
elements in order. -/
def sliceStream : List Value → List Nat
  | [] => []
  | x :: xs1 => valueStream x ++ sliceStream xs1
termination_by xs => (sizeOf xs, 1, 0)
decreasing_by
  all_goals
    simp_wf
    apply lex3_of
    omega

end

/-- The canonical stream of the body of `writeMapHash` for a whole map: the
key loop over the sorted key list. -/
def mapStream (m : List (ByteStr × Value)) : List Nat :=
  loopStream (sortKeys (m.map Prod.fst)) m

theorem mapStream_eq (m : List (ByteStr × Value)) :
    mapStream m = loopStream (sortKeys (m.map Prod.fst)) m := rfl

/-! ### Recurrence equations for the canonical streams -/

@[simp] theorem valueStream_empty : valueStream .empty = [valEmpty] := by
  simp [valueStream]

@[simp] theorem valueStream_bool_true : valueStream (.bool true) = [valBoolTrue] := by
  simp [valueStream]

@[simp] theorem valueStream_bool_false : valueStream (.bool false) = [valBoolFalse] := by
  simp [valueStream]

@[simp] theorem valueStream_int (i : Int) :
    valueStream (.int i) = valIntPrefix :: le64 (toUint64 i) := by
  simp [valueStream]

@[simp] theorem valueStream_double (bits : Nat) :
    valueStream (.double bits) = valDoublePrefix :: le64 bits := by
  simp [valueStream]

@[simp] theorem valueStream_str (s : ByteStr) :
    valueStream (.str s) = valStrPrefix :: s := by
  simp [valueStream]

@[simp] theorem valueStream_bytes (bs : ByteStr) :
    valueStream (.bytes bs) = valBytesPrefix :: bs := by
  simp [valueStream]

@[simp] theorem valueStream_unknown : valueStream .unknown = [] := by
  simp [valueStream]

@[simp] theorem valueStream_slice (xs : List Value) :
    valueStream (.slice xs) = valSlicePrefix :: (sliceStream xs ++ [valSliceSuffix]) := by
  simp [valueStream]

@[simp] theorem valueStream_map (m : List (ByteStr × Value)) :
    valueStream (.map m) = valMapPrefix :: (mapStream m ++ [valMapSuffix]) := by
  simp [valueStream, mapStream]

@[simp] theorem sliceStream_nil : sliceStream [] = [] := by
  simp [sliceStream]

@[simp] theorem sliceStream_cons (x : Value) (xs : List Value) :
    sliceStream (x :: xs) = valueStream x ++ sliceStream xs := by
  simp [sliceStream]

@[simp] theorem loopStream_nil (m : List (ByteStr × Value)) : loopStream [] m = [] := by
  simp [loopStream]

@[simp] theorem loopStream_cons (k : ByteStr) (ks : List ByteStr) (m : List (ByteStr × Value)) :
    loopStream (k :: ks) m =
      (keyPrefix :: k) ++ (valueStream (lookupV k m) ++ loopStream ks m) := by
  simp [loopStream]

/-- The 16-byte digest of a complete byte stream: the big-endian XXH64 of
the stream followed by the big-endian XXH64 of the stream extended by the
extra byte. -/
def hashStream (s : List Nat) : List Nat :=
  be64 (xxh64 s) ++ be64 (xxh64 (s ++ [extraByte]))

/-! ### The hash writer (`hashWriter` struct, hash.go lines 44-60) -/

/-- `hashWriter`: the pooled scratch state.  `h` is the xxhash accumulator,
modelled as the byte sequence fed since the last `Reset`.  `keysBuf` models
the contents of the backing array of the `keysBuf` slice, because the
aliasing of that array is observable: `writeMapHash` truncates the slice
(`hw.keysBuf[:0]`, hash.go line 86) and appends into the same backing
array, while an outer `for _, k := range hw.keysBuf` loop (line 92) is
still reading that array by index, so a nested map value overwrites, in
place, the keys an enclosing key loop has yet to read.  Appends are
modelled as always landing in place (the array never reallocates); this is
exact whenever every map's key count fits the checked-out array's capacity
(16 for a fresh writer), while a larger map reallocates mid-append and the
fed bytes then depend on the pooled array's capacity history (see the C6
record).  `strBuf` and `sumHash` hold their visible contents; their spare
capacity is write-only scratch and never read. -/
structure hashWriter where
  h : List Nat
  strBuf : List Nat
  keysBuf : List ByteStr
  sumHash : List Nat
  numBuf : List Nat

/-- `newHashWriter`: a fresh writer (fresh accumulator, empty scratch
buffers, an 8-byte zeroed `numBuf`). -/
def newHashWriter : hashWriter :=
  { h := [], strBuf := [], keysBuf := [], sumHash := [], numBuf := List.replicate 8 0 }

/-- `pcommon.Map.Get` (hash.go line 93): the first entry whose key matches,
or `none` on a miss.  The Go call then returns the invalid zero `Value`
(the `ok` flag is discarded), and its very next use -- the `v.Type()`
switch at hash.go line 109 -- dereferences the nil `orig` pointer inside it
and panics, so a miss aborts the whole hash; the writer functions below
propagate that abort as `none`. -/
def getV (k : ByteStr) : List (ByteStr × Value) → Option Value
  | [] => none
  | e :: es => if e.1 = k then some e.2 else getV k es

/-- The net effect of `hw.keysBuf = hw.keysBuf[:0]`, the `Range` appends
and the in-place `sort.Strings` (hash.go lines 86-91) on the backing
array: the sorted keys overwrite the first `ks.length` cells and the old
contents beyond them survive. -/
def writePrefix (ks : List ByteStr) (arr : List ByteStr) : List ByteStr :=
  ks ++ arr.drop ks.length

theorem sizeOf_getV {k : ByteStr} : ∀ {m : List (ByteStr × Value)} {v : Value},
    getV k m = some v → sizeOf v < sizeOf m := by
  intro m
  induction m with
  | nil => intro v h; simp [getV] at h
  | cons e es ih =>
      intro v h
      by_cases he : e.1 = k
      · simp only [getV, if_pos he, Option.some.injEq] at h
        cases e with
        | mk a b =>
            rw [← h]
            simp
            omega
      · simp only [getV, if_neg he] at h
        have hlt := ih h
        cases e with
        | mk a b => simp; omega

mutual

/-- `(*hashWriter).writeValueHash` (hash.go lines 108-143), a panic during
a nested key loop propagated as `none`.  Each case writes the same bytes
to the accumulator and updates the same scratch buffers as the
corresponding `case` of the Go `switch`; the `unknown` case is the
implicit empty `default`. -/
def hashWriter.writeValueHash (hw : hashWriter) (v : Value) : Option hashWriter :=
  match v with
  | .str s =>
      let sb := valStrPrefix :: s
      some { hw with strBuf := sb, h := hw.h ++ sb }
  | .bool b =>
      if b then some { hw with h := hw.h ++ [valBoolTrue] }
      else some { hw with h := hw.h ++ [valBoolFalse] }
  | .int i =>
      let nb := le64 (toUint64 i)
      some { hw with numBuf := nb, h := (hw.h ++ [valIntPrefix]) ++ nb }
  | .double bits =>
      let nb := le64 bits
      some { hw with numBuf := nb, h := (hw.h ++ [valDoublePrefix]) ++ nb }
  | .map m =>
      match hashWriter.writeMapHash { hw with h := hw.h ++ [valMapPrefix] } m with
      | none => none
      | some hw2 => some { hw2 with h := hw2.h ++ [valMapSuffix] }
  | .slice xs =>
      match hashWriter.writeSliceHash { hw with h := hw.h ++ [valSlicePrefix] } xs with
      | none => none
      | some hw2 => some { hw2 with h := hw2.h ++ [valSliceSuffix] }
  | .bytes bs => some { hw with h := (hw.h ++ [valBytesPrefix]) ++ bs }
  | .empty => some { hw with h := hw.h ++ [valEmpty] }
  | .unknown => some hw
termination_by (sizeOf v, 2, 0)
decreasing_by
  all_goals
    simp_wf
    apply lex3_of
    omega

/-- `(*hashWriter).writeMapHash` (hash.go lines 85-100): overwrite the
prefix of the `keysBuf` backing array with the sorted keys (lines 86-91),
then run the key loop by index over as many cells as there are keys. -/
def hashWriter.writeMapHash (hw : hashWriter) (m : List (ByteStr × Value)) :
    Option hashWriter :=
  hashWriter.mapLoop
    { hw with keysBuf := writePrefix (sortKeys (m.map Prod.fst)) hw.keysBuf }
    0 (sortKeys (m.map Prod.fst)).length m
termination_by (sizeOf m + 1, 1, 0)
decreasing_by
  all_goals
    apply lex3_of
    omega

/-- The `for _, k := range hw.keysBuf` loop of `writeMapHash` (hash.go
lines 92-99).  `range` froze the slice header at `(array, n)`, so step `i`
reads cell `i` of the live backing array -- which the nested
`writeMapHash` of an earlier step's map value may have overwritten since.
A `Get` miss on the key read there aborts with the `Type()` panic
(`none`); on a hit the tagged key fragment is built in `strBuf` and fed,
then the value is hashed. -/
def hashWriter.mapLoop (hw : hashWriter) (i n : Nat) (m : List (ByteStr × Value)) :
    Option hashWriter :=
  if hi : i < n then
    match hget : getV (hw.keysBuf.getD i []) m with
    | none => none
    | some v =>
        let sb := keyPrefix :: (hw.keysBuf.getD i [])
        match hashWriter.writeValueHash { hw with strBuf := sb, h := hw.h ++ sb } v with
        | none => none
        | some hw2 => hashWriter.mapLoop hw2 (i + 1) n m
  else some hw
termination_by (sizeOf m + 1, 0, n - i)
decreasing_by
  · simp_wf
    apply lex3_of
    have hlt := sizeOf_getV hget
    omega
  · simp_wf
    apply lex3_of
    omega

/-- `(*hashWriter).writeSliceHash` (hash.go lines 102-106): hash the
elements in original order, stopping at a panic. -/
def hashWriter.writeSliceHash (hw : hashWriter) (xs : List Value) : Option hashWriter :=
  match xs with
  | [] => some hw
  | x :: xs1 =>
      match hw.writeValueHash x with
      | none => none
      | some hw1 => hw1.writeSliceHash xs1
termination_by (sizeOf xs, 1, 0)
decreasing_by
  all_goals
    simp_wf
    apply lex3_of
    omega

end

/-! ### Finalization and entry points (hash.go lines 62-83, 145-157) -/

/-- `xxhash.Digest.Sum`: append the 8-byte big-endian `Sum64` of the bytes
fed so far to the buffer `b`, without disturbing the accumulator. -/
def hashSumAppend (fed b : List Nat) : List Nat := b ++ be64 (xxh64 fed)

/-- `(*hashWriter).hashSum128` (hash.go lines 145-157): finalize into
`sumHash[:0]`, feed the extra byte into the same live accumulator, finalize
again, and copy the 16 accumulated bytes out. -/
def hashWriter.hashSum128 (hw : hashWriter) : List Nat × hashWriter :=
  let b0 := hw.sumHash.take 0
  let b1 := hashSumAppend hw.h b0
  let h2 := hw.h ++ [extraByte]
  let b2 := hashSumAppend h2 b1
  (b2.take 16, { hw with h := h2, sumHash := b2 })

/-- `MapHash` (hash.go lines 66-74) with the writer checked out of the pool
made explicit: reset the accumulator, run `writeMapHash`, finalize; `none`
when the run panics (the Go call never returns). -/
def MapHashWith (hw : hashWriter) (m : List (ByteStr × Value)) : Option (List Nat) :=
  (({ hw with h := [] } : hashWriter).writeMapHash m).map (fun hw2 => (hw2.hashSum128).1)

/-- `MapHash` on a freshly allocated writer. -/
def MapHash (m : List (ByteStr × Value)) : Option (List Nat) := MapHashWith newHashWriter m

/-- `ValueHash` (hash.go lines 76-83) with the pooled writer explicit. -/
def ValueHashWith (hw : hashWriter) (v : Value) : Option (List Nat) :=
  (({ hw with h := [] } : hashWriter).writeValueHash v).map (fun hw2 => (hw2.hashSum128).1)

/-- `ValueHash` on a freshly allocated writer. -/
def ValueHash (v : Value) : Option (List Nat) := ValueHashWith newHashWriter v

/-- The byte stream `MapHash` feeds to the digest on a fresh writer
(`none` when the run panics before finalization). -/
def mapHashStream (m : List (ByteStr × Value)) : Option (List Nat) :=
  (({ newHashWriter with h := [] } : hashWriter).writeMapHash m).map hashWriter.h

/-- The byte stream `ValueHash` feeds to the digest on a fresh writer. -/
def valueHashStream (v : Value) : Option (List Nat) :=
  (({ newHashWriter with h := [] } : hashWriter).writeValueHash v).map hashWriter.h

/-- The first component of `hashSum128` is the 16-byte digest of the bytes
fed so far. -/
theorem hashSum128_fst (hw : hashWriter) : (hw.hashSum128).1 = hashStream hw.h := by
  rw [hashWriter.hashSum128, hashStream, hashSumAppend, hashSumAppend]
  simp [be64]

/-! ### One-step equations for the key loop -/

theorem mapLoop_stop {hw : hashWriter} {i n : Nat} {m : List (ByteStr × Value)}
    (h : ¬ i < n) : hw.mapLoop i n m = some hw := by
  rw [hashWriter.mapLoop, dif_neg h]

theorem mapLoop_step {hw : hashWriter} {i n : Nat} {m : List (ByteStr × Value)}
    (hi : i < n) :
    hw.mapLoop i n m =
      match getV (hw.keysBuf.getD i []) m with
      | none => none
      | some v =>
          match hashWriter.writeValueHash
              { hw with
                strBuf := keyPrefix :: (hw.keysBuf.getD i []),
                h := hw.h ++ (keyPrefix :: (hw.keysBuf.getD i [])) } v with
          | none => none
          | some hw2 => hashWriter.mapLoop hw2 (i + 1) n m := by
  rw [hashWriter.mapLoop, dif_pos hi]
  cases hg : getV (hw.keysBuf.getD i []) m with
  | none => rfl
  | some v => rfl

theorem mapLoop_miss {hw : hashWriter} {i n : Nat} {m : List (ByteStr × Value)}
    (hi : i < n) (hmiss : getV (hw.keysBuf.getD i []) m = none) :
    hw.mapLoop i n m = none := by
  simp only [mapLoop_step hi, hmiss]

/-! ### List index helpers -/

theorem getD_append_lt {l l' : List ByteStr} : ∀ {i : Nat}, i < l.length →
    (l ++ l').getD i [] = l.getD i [] := by
  induction l with
  | nil => intro i h; simp at h
  | cons a as ih =>
      intro i h
      cases i with
      | zero => rfl
      | succ j => exact ih (by simp at h; omega)

theorem getD_mem_of_lt {l : List ByteStr} : ∀ {i : Nat}, i < l.length → l.getD i [] ∈ l := by
  induction l with
  | nil => intro i h; simp at h
  | cons a as ih =>
      intro i h
      cases i with
      | zero => exact List.mem_cons_self a as
      | succ j => exact List.mem_cons_of_mem a (ih (by simp at h; omega))

theorem drop_eq_getD_cons {l : List ByteStr} : ∀ {i : Nat}, i < l.length →
    l.drop i = l.getD i [] :: l.drop (i + 1) := by
  induction l with
  | nil => intro i h; simp at h
  | cons a as ih =>
      intro i h
      cases i with
      | zero => rfl
      | succ j => exact ih (by simp at h; omega)

/-! ### Inputs on which no key loop is clobbered -/

mutual

/-- No nonempty map node anywhere inside the value: hashing it never runs
a nonempty key loop, hence never writes into the `keysBuf` backing array. -/
def mapFree : Value → Bool
  | .slice xs => mapFreeList xs
  | .map [] => true
  | .map (_ :: _) => false
  | _ => true

def mapFreeList : List Value → Bool
  | [] => true
  | x :: xs => mapFree x && mapFreeList xs

end

/-- Every entry value of the map is `mapFree`: hashing the values cannot
overwrite the key loop's own sorted keys. -/
def entriesMapFree : List (ByteStr × Value) → Bool
  | [] => true
  | e :: es => mapFree e.2 && entriesMapFree es

mutual

/-- Every key loop reached while hashing the value runs over intact keys:
each map node's entry values are `mapFree`, so no nested `writeMapHash`
overwrites a live loop's `keysBuf` prefix.  On these inputs the program
feeds exactly the canonical streams (theorems below); outside them it
reads overwritten keys and panics or feeds corrupted bytes (C1 record). -/
def clobberFree : Value → Bool
  | .slice xs => clobberFreeList xs
  | .map m => entriesMapFree m
  | _ => true

def clobberFreeList : List Value → Bool
  | [] => true
  | x :: xs => clobberFree x && clobberFreeList xs

end

theorem mapFreeList_mem {xs : List Value} (h : mapFreeList xs = true) :
    ∀ x ∈ xs, mapFree x = true := by
  induction xs with
  | nil => intro x hx; cases hx
  | cons y ys ih =>
      intro x hx
      simp only [mapFreeList, Bool.and_eq_true] at h
      rcases List.mem_cons.mp hx with h1 | h1
      · rw [h1]; exact h.1
      · exact ih h.2 x h1

theorem clobberFreeList_mem {xs : List Value} (h : clobberFreeList xs = true) :
    ∀ x ∈ xs, clobberFree x = true := by
  induction xs with
  | nil => intro x hx; cases hx
  | cons y ys ih =>
      intro x hx
      simp only [clobberFreeList, Bool.and_eq_true] at h
      rcases List.mem_cons.mp hx with h1 | h1
      · rw [h1]; exact h.1
      · exact ih h.2 x h1

theorem entriesMapFree_lookup {m : List (ByteStr × Value)} (h : entriesMapFree m = true)
    {k : ByteStr} (hk : k ∈ m.map Prod.fst) : mapFree (lookupV k m) = true := by
  induction m with
  | nil => cases hk
  | cons e es ih =>
      simp only [entriesMapFree, Bool.and_eq_true] at h
      by_cases he : e.1 = k
      · simp only [lookupV, if_pos he]; exact h.1
      · simp only [lookupV, if_neg he]
        apply ih h.2
        rw [List.map_cons, List.mem_cons] at hk
        rcases hk with h1 | h1
        · exact absurd h1.symm he
        · exact h1

theorem getV_of_mem {k : ByteStr} : ∀ {m : List (ByteStr × Value)},
    k ∈ m.map Prod.fst → getV k m = some (lookupV k m) := by
  intro m
  induction m with
  | nil => intro hk; cases hk
  | cons e es ih =>
      intro hk
      by_cases he : e.1 = k
      · simp only [getV, lookupV, if_pos he]
      · simp only [getV, lookupV, if_neg he]
        apply ih
        rw [List.map_cons, List.mem_cons] at hk
        rcases hk with h1 | h1
        · exact absurd h1.symm he
        · exact h1

/-! ### The unclobbered-run bridge: program = canonical streams -/

/-- The key loop on an unclobbered run: while the backing array still holds
the sorted keys `ks` as its prefix and every key's value hashes cleanly,
appending its canonical stream and preserving the array, the loop from
position `i` succeeds, feeds exactly the canonical loop stream of the
remaining keys, and preserves the array. -/
theorem mapLoop_safe (m : List (ByteStr × Value)) (ks : List ByteStr)
    (H : ∀ k ∈ ks, ∀ hw3 : hashWriter, ∃ hw4,
      hw3.writeValueHash (lookupV k m) = some hw4 ∧
      hw4.h = hw3.h ++ valueStream (lookupV k m) ∧ hw4.keysBuf = hw3.keysBuf)
    (hks : ∀ k ∈ ks, k ∈ m.map Prod.fst) :
    ∀ (j i : Nat), ks.length - i ≤ j → ∀ (hw : hashWriter) (rest : List ByteStr),
      hw.keysBuf = ks ++ rest →
      ∃ hw2, hw.mapLoop i ks.length m = some hw2 ∧
        hw2.h = hw.h ++ loopStream (ks.drop i) m ∧ hw2.keysBuf = hw.keysBuf := by
  intro j
  induction j with
  | zero =>
      intro i hij hw rest hkb
      have hni : ¬ i < ks.length := by omega
      refine ⟨hw, mapLoop_stop hni, ?_, rfl⟩
      rw [List.drop_eq_nil_of_le (by omega)]
      simp
  | succ j ih =>
      intro i hij hw rest hkb
      by_cases hi : i < ks.length
      · have hkd : hw.keysBuf.getD i [] = ks.getD i [] := by
          rw [hkb]; exact getD_append_lt hi
        have hkmem : ks.getD i [] ∈ ks := getD_mem_of_lt hi
        have hgv : getV (ks.getD i []) m = some (lookupV (ks.getD i []) m) :=
          getV_of_mem (hks _ hkmem)
        obtain ⟨hwx, x1, x2, x3⟩ := H (ks.getD i []) hkmem
          { hw with strBuf := keyPrefix :: (ks.getD i []),
                    h := hw.h ++ (keyPrefix :: (ks.getD i [])) }
        have hx3 : hwx.keysBuf = ks ++ rest := by rw [x3]; exact hkb
        obtain ⟨hw2, e1, e2, e3⟩ := ih (i + 1) (by omega) hwx rest hx3
        refine ⟨hw2, ?_, ?_, ?_⟩
        · simp only [mapLoop_step hi, hkd, hgv, x1]
          exact e1
        · rw [e2, x2, drop_eq_getD_cons hi, loopStream_cons]
          simp
        · rw [e3, x3]
      · have hni : ¬ i < ks.length := hi
        refine ⟨hw, mapLoop_stop hni, ?_, rfl⟩
        rw [List.drop_eq_nil_of_le (by omega)]
        simp

/-- `sort.Strings` on raw byte strings produces a permutation (needed to
carry key membership through the sort). -/
theorem sortKeys_perm (ks : List ByteStr) : List.Perm (sortKeys ks) ks :=
  List.perm_insertionSort _ ks

/-- `writeMapHash` given clean value runs for every sorted key: it
succeeds, feeds exactly the canonical map stream, and leaves the backing
array holding the sorted keys over its old contents. -/
theorem writeMapHash_bridge (m : List (ByteStr × Value))
    (H : ∀ k ∈ sortKeys (m.map Prod.fst), ∀ hw3 : hashWriter, ∃ hw4,
      hw3.writeValueHash (lookupV k m) = some hw4 ∧
      hw4.h = hw3.h ++ valueStream (lookupV k m) ∧ hw4.keysBuf = hw3.keysBuf)
    (hw : hashWriter) :
    ∃ hw2, hw.writeMapHash m = some hw2 ∧ hw2.h = hw.h ++ mapStream m ∧
      hw2.keysBuf = writePrefix (sortKeys (m.map Prod.fst)) hw.keysBuf := by
  have hks : ∀ k ∈ sortKeys (m.map Prod.fst), k ∈ m.map Prod.fst := fun k hk =>
    (sortKeys_perm (m.map Prod.fst)).mem_iff.mp hk
  obtain ⟨hw2, e1, e2, e3⟩ := mapLoop_safe m (sortKeys (m.map Prod.fst)) H hks
    (sortKeys (m.map Prod.fst)).length 0 (by omega)
    { hw with keysBuf := writePrefix (sortKeys (m.map Prod.fst)) hw.keysBuf }
    (hw.keysBuf.drop (sortKeys (m.map Prod.fst)).length) rfl
  refine ⟨hw2, ?_, ?_, ?_⟩
  · rw [hashWriter.writeMapHash]; exact e1
  · rw [e2]; simp [mapStream]
  · rw [e3]

/-- The slice loop lift of the `mapFree` bridge. -/
theorem writeSliceHash_mapFree_aux (xs : List Value)
    (H : ∀ x ∈ xs, ∀ hw : hashWriter, ∃ hw2, hw.writeValueHash x = some hw2 ∧
      hw2.h = hw.h ++ valueStream x ∧ hw2.keysBuf = hw.keysBuf) :
    ∀ hw : hashWriter, ∃ hw2, hw.writeSliceHash xs = some hw2 ∧
      hw2.h = hw.h ++ sliceStream xs ∧ hw2.keysBuf = hw.keysBuf := by
  induction xs with
  | nil =>
      intro hw
      refine ⟨hw, ?_, by simp, rfl⟩
      rw [hashWriter.writeSliceHash]
  | cons x xs1 ih =>
      intro hw
      obtain ⟨hwx, x1, x2, x3⟩ := H x (List.mem_cons_self x xs1) hw
      obtain ⟨hw2, e1, e2, e3⟩ := ih (fun y hy => H y (List.mem_cons_of_mem x hy)) hwx
      refine ⟨hw2, ?_, ?_, ?_⟩
      · rw [hashWriter.writeSliceHash]
        simp only [x1]
        exact e1
      · rw [e2, x2, sliceStream_cons, List.append_assoc]
      · rw [e3, x3]

/-- Hashing a `mapFree` value never panics, appends exactly its canonical
stream to the accumulator, and leaves the `keysBuf` backing array
untouched. -/
theorem writeValueHash_mapFree_aux : ∀ n (v : Value), sizeOf v ≤ n → mapFree v = true →
    ∀ hw : hashWriter, ∃ hw2, hw.writeValueHash v = some hw2 ∧
      hw2.h = hw.h ++ valueStream v ∧ hw2.keysBuf = hw.keysBuf := by
  intro n
  induction n using Nat.strong_induction_on with
  | _ n IH =>
    intro v hv hmf hw
    match v with
    | .empty =>
        refine ⟨{ hw with h := hw.h ++ [valEmpty] }, ?_, by simp, rfl⟩
        rw [hashWriter.writeValueHash]
    | .bool b =>
        cases b
        · refine ⟨{ hw with h := hw.h ++ [valBoolFalse] }, ?_, by simp, rfl⟩
          rw [hashWriter.writeValueHash]
          simp
        · refine ⟨{ hw with h := hw.h ++ [valBoolTrue] }, ?_, by simp, rfl⟩
          rw [hashWriter.writeValueHash]
          simp
    | .int i =>
        refine ⟨{ hw with numBuf := le64 (toUint64 i),
                          h := (hw.h ++ [valIntPrefix]) ++ le64 (toUint64 i) },
          ?_, by simp, rfl⟩
        rw [hashWriter.writeValueHash]
    | .double bits =>
        refine ⟨{ hw with numBuf := le64 bits,
                          h := (hw.h ++ [valDoublePrefix]) ++ le64 bits },
          ?_, by simp, rfl⟩
        rw [hashWriter.writeValueHash]
    | .str s =>
        refine ⟨{ hw with strBuf := valStrPrefix :: s,
                          h := hw.h ++ (valStrPrefix :: s) },
          ?_, by simp, rfl⟩
        rw [hashWriter.writeValueHash]
    | .bytes bs =>
        refine ⟨{ hw with h := (hw.h ++ [valBytesPrefix]) ++ bs }, ?_, by simp, rfl⟩
        rw [hashWriter.writeValueHash]
    | .unknown =>
        refine ⟨hw, ?_, by simp, rfl⟩
        rw [hashWriter.writeValueHash]
    | .slice xs =>
        have hn1 : 1 ≤ n := by
          have h1 : sizeOf (Value.slice xs) = 1 + sizeOf xs := by simp
          omega
        simp only [mapFree] at hmf
        have Hel : ∀ x ∈ xs, ∀ hw3 : hashWriter, ∃ hw4, hw3.writeValueHash x = some hw4 ∧
            hw4.h = hw3.h ++ valueStream x ∧ hw4.keysBuf = hw3.keysBuf := by
          intro x hx hw3
          have hxlt : sizeOf x < sizeOf xs := List.sizeOf_lt_of_mem hx
          have hsz : sizeOf (Value.slice xs) = 1 + sizeOf xs := by simp
          exact IH (n - 1) (by omega) x (by omega) (mapFreeList_mem hmf x hx) hw3
        obtain ⟨hwS, s1, s2, s3⟩ := writeSliceHash_mapFree_aux xs Hel
          { hw with h := hw.h ++ [valSlicePrefix] }
        refine ⟨{ hwS with h := hwS.h ++ [valSliceSuffix] }, ?_, ?_, ?_⟩
        · rw [hashWriter.writeValueHash]
          simp only [s1]
        · simp only [s2]
          simp
        · simp only [s3]
    | .map mm =>
        cases mm with
        | cons e es => simp [mapFree] at hmf
        | nil =>
            obtain ⟨hwM, m1, m2, m3⟩ := writeMapHash_bridge []
              (by intro k hk; exact absurd hk (by simp [sortKeys, List.insertionSort]))
              { hw with h := hw.h ++ [valMapPrefix] }
            refine ⟨{ hwM with h := hwM.h ++ [valMapSuffix] }, ?_, ?_, ?_⟩
            · rw [hashWriter.writeValueHash]
              simp only [m1]
            · simp only [m2]
              simp
            · simp only [m3]
              simp [writePrefix, sortKeys, List.insertionSort]

/-- The `mapFree` bridge at the natural size bound. -/
theorem writeValueHash_mapFree {v : Value} (hmf : mapFree v = true) (hw : hashWriter) :
    ∃ hw2, hw.writeValueHash v = some hw2 ∧ hw2.h = hw.h ++ valueStream v ∧
      hw2.keysBuf = hw.keysBuf :=
  writeValueHash_mapFree_aux (sizeOf v) v (Nat.le_refl _) hmf hw

/-- A map whose entry values are `mapFree` hashes without panic, feeds the
canonical map stream, and leaves the sorted keys over the array prefix. -/
theorem writeMapHash_free {m : List (ByteStr × Value)} (hm : entriesMapFree m = true)
    (hw : hashWriter) :
    ∃ hw2, hw.writeMapHash m = some hw2 ∧ hw2.h = hw.h ++ mapStream m ∧
      hw2.keysBuf = writePrefix (sortKeys (m.map Prod.fst)) hw.keysBuf := by
  apply writeMapHash_bridge
  intro k hk hw3
  have hkm : k ∈ m.map Prod.fst := (sortKeys_perm (m.map Prod.fst)).mem_iff.mp hk
  exact writeValueHash_mapFree (entriesMapFree_lookup hm hkm) hw3

/-- As `writeMapHash_free`, without the array clause. -/
theorem writeMapHash_safe {m : List (ByteStr × Value)} (hm : entriesMapFree m = true)
    (hw : hashWriter) :
    ∃ hw2, hw.writeMapHash m = some hw2 ∧ hw2.h = hw.h ++ mapStream m := by
  obtain ⟨hw2, e1, e2, _⟩ := writeMapHash_free hm hw
  exact ⟨hw2, e1, e2⟩

/-- Hashing a map value whose entries are `mapFree`: success, canonical
bytes, and the inner sorted keys written over the array prefix. -/
theorem writeValueHash_map_free {m : List (ByteStr × Value)} (hm : entriesMapFree m = true)
    (hw : hashWriter) :
    ∃ hw2, hw.writeValueHash (Value.map m) = some hw2 ∧
      hw2.h = hw.h ++ valueStream (Value.map m) ∧
      hw2.keysBuf = writePrefix (sortKeys (m.map Prod.fst)) hw.keysBuf := by
  obtain ⟨hwC, c1, c2, c3⟩ := writeMapHash_free hm { hw with h := hw.h ++ [valMapPrefix] }
  refine ⟨{ hwC with h := hwC.h ++ [valMapSuffix] }, ?_, ?_, ?_⟩
  · rw [hashWriter.writeValueHash]
    simp only [c1]
  · simp only [c2]
    simp
  · simp only [c3]

/-- The slice loop lift of the clobber-free bridge (no array clause). -/
theorem writeSliceHash_cf_aux (xs : List Value)
    (H : ∀ x ∈ xs, ∀ hw : hashWriter, ∃ hw2, hw.writeValueHash x = some hw2 ∧
      hw2.h = hw.h ++ valueStream x) :
    ∀ hw : hashWriter, ∃ hw2, hw.writeSliceHash xs = some hw2 ∧
      hw2.h = hw.h ++ sliceStream xs := by
  induction xs with
  | nil =>
      intro hw
      refine ⟨hw, ?_, by simp⟩
      rw [hashWriter.writeSliceHash]
  | cons x xs1 ih =>
      intro hw
      obtain ⟨hwx, x1, x2⟩ := H x (List.mem_cons_self x xs1) hw
      obtain ⟨hw2, e1, e2⟩ := ih (fun y hy => H y (List.mem_cons_of_mem x hy)) hwx
      refine ⟨hw2, ?_, ?_⟩
      · rw [hashWriter.writeSliceHash]
        simp only [x1]
        exact e1
      · rw [e2, x2, sliceStream_cons, List.append_assoc]

/-- Hashing a `clobberFree` value never panics and appends exactly its
canonical stream to the accumulator. -/
theorem writeValueHash_cf_aux : ∀ n (v : Value), sizeOf v ≤ n → clobberFree v = true →
    ∀ hw : hashWriter, ∃ hw2, hw.writeValueHash v = some hw2 ∧
      hw2.h = hw.h ++ valueStream v := by
  intro n
  induction n using Nat.strong_induction_on with
  | _ n IH =>
    intro v hv hcf hw
    match v with
    | .empty =>
        obtain ⟨hw2, e1, e2, _⟩ := @writeValueHash_mapFree (Value.empty) (by rfl) hw
        exact ⟨hw2, e1, e2⟩
    | .bool b =>
        obtain ⟨hw2, e1, e2, _⟩ := @writeValueHash_mapFree (Value.bool b) (by rfl) hw
        exact ⟨hw2, e1, e2⟩
    | .int i =>
        obtain ⟨hw2, e1, e2, _⟩ := @writeValueHash_mapFree (Value.int i) (by rfl) hw
        exact ⟨hw2, e1, e2⟩
    | .double bits =>
        obtain ⟨hw2, e1, e2, _⟩ := @writeValueHash_mapFree (Value.double bits) (by rfl) hw
        exact ⟨hw2, e1, e2⟩
    | .str s =>
        obtain ⟨hw2, e1, e2, _⟩ := @writeValueHash_mapFree (Value.str s) (by rfl) hw
        exact ⟨hw2, e1, e2⟩
    | .bytes bs =>
        obtain ⟨hw2, e1, e2, _⟩ := @writeValueHash_mapFree (Value.bytes bs) (by rfl) hw
        exact ⟨hw2, e1, e2⟩
    | .unknown =>
        obtain ⟨hw2, e1, e2, _⟩ := @writeValueHash_mapFree (Value.unknown) (by rfl) hw
        exact ⟨hw2, e1, e2⟩
    | .slice xs =>
        have hn1 : 1 ≤ n := by
          have h1 : sizeOf (Value.slice xs) = 1 + sizeOf xs := by simp
          omega
        simp only [clobberFree] at hcf
        have Hel : ∀ x ∈ xs, ∀ hw3 : hashWriter, ∃ hw4, hw3.writeValueHash x = some hw4 ∧
            hw4.h = hw3.h ++ valueStream x := by
          intro x hx hw3
          have hxlt : sizeOf x < sizeOf xs := List.sizeOf_lt_of_mem hx
          have hsz : sizeOf (Value.slice xs) = 1 + sizeOf xs := by simp
          exact IH (n - 1) (by omega) x (by omega) (clobberFreeList_mem hcf x hx) hw3
        obtain ⟨hwS, s1, s2⟩ := writeSliceHash_cf_aux xs Hel
          { hw with h := hw.h ++ [valSlicePrefix] }
        refine ⟨{ hwS with h := hwS.h ++ [valSliceSuffix] }, ?_, ?_⟩
        · rw [hashWriter.writeValueHash]
          simp only [s1]
        · simp only [s2]
          simp
    | .map mm =>
        simp only [clobberFree] at hcf
        obtain ⟨hw2, e1, e2, _⟩ := writeValueHash_map_free hcf hw
        exact ⟨hw2, e1, e2⟩

/-- The clobber-free bridge at the natural size bound. -/
theorem writeValueHash_cf {v : Value} (hcf : clobberFree v = true) (hw : hashWriter) :
    ∃ hw2, hw.writeValueHash v = some hw2 ∧ hw2.h = hw.h ++ valueStream v :=
  writeValueHash_cf_aux (sizeOf v) v (Nat.le_refl _) hcf hw

/-! ### Digest- and stream-level bridges -/

theorem ValueHashWith_ok (hw : hashWriter) {v : Value} (hcf : clobberFree v = true) :
    ValueHashWith hw v = some (hashStream (valueStream v)) := by
  obtain ⟨hw2, e1, e2⟩ := writeValueHash_cf hcf { hw with h := [] }
  rw [ValueHashWith, e1]
  simp [hashSum128_fst, e2]

theorem MapHashWith_ok (hw : hashWriter) {m : List (ByteStr × Value)}
    (hm : entriesMapFree m = true) :
    MapHashWith hw m = some (hashStream (mapStream m)) := by
  obtain ⟨hw2, e1, e2⟩ := writeMapHash_safe hm { hw with h := [] }
  rw [MapHashWith, e1]
  simp [hashSum128_fst, e2]

theorem ValueHash_ok {v : Value} (hcf : clobberFree v = true) :
    ValueHash v = some (hashStream (valueStream v)) :=
  ValueHashWith_ok newHashWriter hcf

theorem MapHash_ok {m : List (ByteStr × Value)} (hm : entriesMapFree m = true) :
    MapHash m = some (hashStream (mapStream m)) :=
  MapHashWith_ok newHashWriter hm

theorem valueHashStream_ok {v : Value} (hcf : clobberFree v = true) :
    valueHashStream v = some (valueStream v) := by
  obtain ⟨hw2, e1, e2⟩ := writeValueHash_cf hcf { newHashWriter with h := [] }
  rw [valueHashStream, e1]
  simp [e2]

theorem mapHashStream_ok {m : List (ByteStr × Value)} (hm : entriesMapFree m = true) :
    mapHashStream m = some (mapStream m) := by
  obtain ⟨hw2, e1, e2⟩ := writeMapHash_safe hm { newHashWriter with h := [] }
  rw [mapHashStream, e1]
  simp [e2]

/-- One key-loop step that hashes a map value whose entries are
`mapFree`: the run continues at the next index with the inner sorted keys
written over the loop's own backing array. -/
theorem mapLoop_step_map_none {hw : hashWriter} {i n : Nat}
    {mOut mIn : List (ByteStr × Value)} {k : ByteStr}
    (hi : i < n) (hk : hw.keysBuf.getD i [] = k)
    (hget : getV k mOut = some (Value.map mIn)) (hIn : entriesMapFree mIn = true)
    (hrest : ∀ hw2 : hashWriter,
      hw2.keysBuf = writePrefix (sortKeys (mIn.map Prod.fst)) hw.keysBuf →
      hw2.mapLoop (i + 1) n mOut = none) :
    hw.mapLoop i n mOut = none := by
  simp only [mapLoop_step hi, hk, hget]
  obtain ⟨hwD, d1, d2, d3⟩ := writeValueHash_map_free hIn
    { hw with strBuf := keyPrefix :: k, h := hw.h ++ (keyPrefix :: k) }
  simp only [d1]
  exact hrest hwD (by simpa using d3)

/-- C1 (code bug): `MapHash` panics on the concrete nested map
{"a": {"x": 1, "y": 2}, "b": 3} instead of digesting its sorted entries:
hashing the value of "a" truncates `keysBuf` and overwrites the outer key
loop's backing array with the inner sorted keys "x", "y" (hash.go line 86)
while the outer loop (line 92) is still reading it, so the second outer
iteration reads "y" instead of "b", `Map.Get` misses, and the invalid
`Value` it returns panics in `v.Type()` (line 109): the run aborts with no
digest. -/
theorem mapHash_panics_on_nested_multikey_map :
    MapHash [([97], Value.map [([120], Value.int 1), ([121], Value.int 2)]),
      ([98], Value.int 3)] = none := by
  have hinner : entriesMapFree [([120], Value.int 1), ([121], Value.int 2)] = true := by rfl
  have hks : sortKeys [[97], [98]] = [[97], [98]] := by decide
  have hksIn : sortKeys [[120], [121]] = [[120], [121]] := by decide
  suffices hnone : ({ newHashWriter with h := [] } : hashWriter).writeMapHash
      [([97], Value.map [([120], Value.int 1), ([121], Value.int 2)]), ([98], Value.int 3)]
      = none by
    rw [MapHash, MapHashWith, hnone]
    rfl
  rw [hashWriter.writeMapHash]
  simp only [List.map_cons, List.map_nil, hks, newHashWriter, writePrefix,
    List.drop_nil, List.append_nil, List.length_cons, List.length_nil]
  refine mapLoop_step_map_none (by omega) rfl rfl hinner ?_
  intro hw2 hkb2
  simp only [List.map_cons, List.map_nil, hksIn, writePrefix] at hkb2
  refine mapLoop_miss (by omega) ?_
  rw [hkb2]
  rfl

/-! ### Nesting depth and a fuel-bounded writer (recursion-depth analysis) -/

mutual

/-- The nesting depth of a value: the recursion depth `writeValueHash`
reaches on it (scalars need one call; containers one call plus their
deepest child). -/
def depth : Value → Nat
  | .slice xs => 1 + depthList xs
  | .map m => 1 + depthEntries m
  | _ => 1

/-- Deepest element of a slice (0 when empty). -/
def depthList : List Value → Nat
  | [] => 0
  | x :: xs => max (depth x) (depthList xs)

/-- Deepest entry value of a map (0 when empty). -/
def depthEntries : List (ByteStr × Value) → Nat
  | [] => 0
  | e :: es => max (depth e.2) (depthEntries es)

end

theorem one_le_depth (v : Value) : 1 ≤ depth v := by
  cases v <;> simp [depth]

theorem depth_le_depthList {x : Value} {xs : List Value} (hx : x ∈ xs) :
    depth x ≤ depthList xs := by
  induction xs with
  | nil => cases hx
  | cons y ys ih =>
      rcases List.mem_cons.mp hx with h | h
      · subst h; simp [depthList]
      · calc depth x ≤ depthList ys := ih h
          _ ≤ depthList (y :: ys) := by simp [depthList]

theorem getV_depth {k : ByteStr} : ∀ {m : List (ByteStr × Value)} {v : Value},
    getV k m = some v → depth v ≤ depthEntries m := by
  intro m
  induction m with
  | nil => intro v h; simp [getV] at h
  | cons e es ih =>
      intro v h
      by_cases he : e.1 = k
      · simp only [getV, if_pos he, Option.some.injEq] at h
        rw [← h]
        simp [depthEntries]
      · simp only [getV, if_neg he] at h
        exact le_trans (ih h) (by simp [depthEntries])

mutual

/-- `writeValueHash` with an explicit recursion-depth budget: one unit of
fuel per invocation; the outer `none` when the budget is exhausted,
`some r` when the call returns with the unbounded writer's outcome `r`
(itself `none` when the Go call panics). -/
def writeValueHashFuel : Nat → hashWriter → Value → Option (Option hashWriter)
  | 0, _, _ => none
  | _ + 1, hw, .str s =>
      let sb := valStrPrefix :: s
      some (some { hw with strBuf := sb, h := hw.h ++ sb })
  | _ + 1, hw, .bool b =>
      if b then some (some { hw with h := hw.h ++ [valBoolTrue] })
      else some (some { hw with h := hw.h ++ [valBoolFalse] })
  | _ + 1, hw, .int i =>
      let nb := le64 (toUint64 i)
      some (some { hw with numBuf := nb, h := (hw.h ++ [valIntPrefix]) ++ nb })
  | _ + 1, hw, .double bits =>
      let nb := le64 bits
      some (some { hw with numBuf := nb, h := (hw.h ++ [valDoublePrefix]) ++ nb })
  | f + 1, hw, .map m =>
      match writeMapHashFuel f { hw with h := hw.h ++ [valMapPrefix] } m with
      | none => none
      | some none => some none
      | some (some hw2) => some (some { hw2 with h := hw2.h ++ [valMapSuffix] })
  | f + 1, hw, .slice xs =>
      match writeSliceHashFuel f { hw with h := hw.h ++ [valSlicePrefix] } xs with
      | none => none
      | some none => some none
      | some (some hw2) => some (some { hw2 with h := hw2.h ++ [valSliceSuffix] })
  | _ + 1, hw, .bytes bs => some (some { hw with h := (hw.h ++ [valBytesPrefix]) ++ bs })
  | _ + 1, hw, .empty => some (some { hw with h := hw.h ++ [valEmpty] })
  | _ + 1, hw, .unknown => some (some hw)
termination_by f _ _ => (f, 0, 0)
decreasing_by
  all_goals
    apply lex3_of
    omega

/-- `writeMapHash` under a fuel budget for the entry values. -/
def writeMapHashFuel (f : Nat) (hw : hashWriter) (m : List (ByteStr × Value)) :
    Option (Option hashWriter) :=
  mapLoopFuel f { hw with keysBuf := writePrefix (sortKeys (m.map Prod.fst)) hw.keysBuf }
    0 (sortKeys (m.map Prod.fst)).length m
termination_by (f, 2, 0)
decreasing_by
  all_goals
    apply lex3_of
    omega

/-- The key loop under a fuel budget for the entry values. -/
def mapLoopFuel (f : Nat) (hw : hashWriter) (i n : Nat) (m : List (ByteStr × Value)) :
    Option (Option hashWriter) :=
  if hi : i < n then
    match getV (hw.keysBuf.getD i []) m with
    | none => some none
    | some v =>
        let sb := keyPrefix :: (hw.keysBuf.getD i [])
        match writeValueHashFuel f { hw with strBuf := sb, h := hw.h ++ sb } v with
        | none => none
        | some none => some none
        | some (some hw2) => mapLoopFuel f hw2 (i + 1) n m
  else some (some hw)
termination_by (f, 1, n - i)
decreasing_by
  · apply lex3_of
    omega
  · apply lex3_of
    omega

/-- The slice loop under a fuel budget for the elements. -/
def writeSliceHashFuel (f : Nat) (hw : hashWriter) (xs : List Value) :
    Option (Option hashWriter) :=
  match xs with
  | [] => some (some hw)
  | x :: xs1 =>
      match writeValueHashFuel f hw x with
      | none => none
      | some none => some none
      | some (some hw1) => writeSliceHashFuel f hw1 xs1
termination_by (f, 1, xs.length)
decreasing_by
  all_goals
    simp_wf
    apply lex3_of
    omega

end

theorem mapLoopFuel_stop {f : Nat} {hw : hashWriter} {i n : Nat}
    {m : List (ByteStr × Value)} (h : ¬ i < n) :
    mapLoopFuel f hw i n m = some (some hw) := by
  rw [mapLoopFuel, dif_neg h]

theorem mapLoopFuel_step {f : Nat} {hw : hashWriter} {i n : Nat}
    {m : List (ByteStr × Value)} (hi : i < n) :
    mapLoopFuel f hw i n m =
      match getV (hw.keysBuf.getD i []) m with
      | none => some none
      | some v =>
          match writeValueHashFuel f
              { hw with
                strBuf := keyPrefix :: (hw.keysBuf.getD i []),
                h := hw.h ++ (keyPrefix :: (hw.keysBuf.getD i [])) } v with
          | none => none
          | some none => some none
          | some (some hw2) => mapLoopFuel f hw2 (i + 1) n m := by
  rw [mapLoopFuel, dif_pos hi]

/-- Fuel sufficiency for the key loop, given it for values up to the
entries' depth. -/
theorem mapLoopFuel_suff {f : Nat} {m : List (ByteStr × Value)}
    (H : ∀ v2 : Value, depth v2 ≤ f → ∀ hw3 : hashWriter,
      writeValueHashFuel f hw3 v2 = some (hw3.writeValueHash v2))
    (hd : depthEntries m ≤ f) :
    ∀ (j i n : Nat), n - i ≤ j → ∀ hw : hashWriter,
      mapLoopFuel f hw i n m = some (hw.mapLoop i n m) := by
  intro j
  induction j with
  | zero =>
      intro i n hij hw
      have hni : ¬ i < n := by omega
      rw [mapLoopFuel_stop hni, mapLoop_stop hni]
  | succ j ih =>
      intro i n hij hw
      by_cases hi : i < n
      · rw [mapLoopFuel_step hi, mapLoop_step hi]
        cases hget : getV (hw.keysBuf.getD i []) m with
        | none => rfl
        | some v =>
            have hv := H v (le_trans (getV_depth hget) hd)
              { hw with
                strBuf := keyPrefix :: (hw.keysBuf.getD i []),
                h := hw.h ++ (keyPrefix :: (hw.keysBuf.getD i [])) }
            simp only [hv]
            cases hwv : hashWriter.writeValueHash
                { hw with
                  strBuf := keyPrefix :: (hw.keysBuf.getD i []),
                  h := hw.h ++ (keyPrefix :: (hw.keysBuf.getD i [])) } v with
            | none => rfl
            | some hw2 => exact ih (i + 1) n (by omega) hw2
      · have hni : ¬ i < n := hi
        rw [mapLoopFuel_stop hni, mapLoop_stop hni]

/-- Fuel sufficiency for the slice loop, given it for the elements. -/
theorem writeSliceHashFuel_suff {f : Nat} (xs : List Value)
    (H : ∀ x ∈ xs, ∀ hw : hashWriter,
      writeValueHashFuel f hw x = some (hw.writeValueHash x)) :
    ∀ hw : hashWriter, writeSliceHashFuel f hw xs = some (hw.writeSliceHash xs) := by
  induction xs with
  | nil =>
      intro hw
      rw [writeSliceHashFuel, hashWriter.writeSliceHash]
  | cons x xs1 ih =>
      intro hw
      rw [writeSliceHashFuel, hashWriter.writeSliceHash]
      rw [H x (List.mem_cons_self x xs1)]
      cases hwx : hw.writeValueHash x with
      | none => rfl
      | some hw1 => exact ih (fun y hy => H y (List.mem_cons_of_mem x hy)) hw1

/-- Fuel equal to the nesting depth reproduces the unbounded writer. -/
theorem writeValueHashFuel_sufficient : ∀ f (v : Value), depth v ≤ f →
    ∀ hw : hashWriter, writeValueHashFuel f hw v = some (hw.writeValueHash v) := by
  intro f
  induction f using Nat.strong_induction_on with
  | _ f IH =>
    intro v hv hw
    have h1 : 1 ≤ depth v := one_le_depth v
    obtain ⟨g, rfl⟩ : ∃ g, f = g + 1 := ⟨f - 1, by omega⟩
    match v with
    | .empty => rw [writeValueHashFuel, hashWriter.writeValueHash]
    | .bool b =>
        cases b <;> rw [writeValueHashFuel, hashWriter.writeValueHash] <;> simp
    | .int i => rw [writeValueHashFuel, hashWriter.writeValueHash]
    | .double bits => rw [writeValueHashFuel, hashWriter.writeValueHash]
    | .str s => rw [writeValueHashFuel, hashWriter.writeValueHash]
    | .bytes bs => rw [writeValueHashFuel, hashWriter.writeValueHash]
    | .unknown => rw [writeValueHashFuel, hashWriter.writeValueHash]
    | .slice xs =>
        have hdl : depthList xs ≤ g := by
          have hds : depth (Value.slice xs) = 1 + depthList xs := by rw [depth]
          omega
        have Hxs : ∀ x ∈ xs, ∀ hw3 : hashWriter,
            writeValueHashFuel g hw3 x = some (hw3.writeValueHash x) :=
          fun x hx hw3 => IH g (by omega) x (le_trans (depth_le_depthList hx) hdl) hw3
        rw [writeValueHashFuel, hashWriter.writeValueHash]
        rw [writeSliceHashFuel_suff xs Hxs]
        cases hws : hashWriter.writeSliceHash { hw with h := hw.h ++ [valSlicePrefix] } xs with
        | none => rfl
        | some hw2 => rfl
    | .map m =>
        have hde : depthEntries m ≤ g := by
          have hdm : depth (Value.map m) = 1 + depthEntries m := by rw [depth]
          omega
        have Hv : ∀ v2 : Value, depth v2 ≤ g → ∀ hw3 : hashWriter,
            writeValueHashFuel g hw3 v2 = some (hw3.writeValueHash v2) :=
          fun v2 h2 hw3 => IH g (by omega) v2 h2 hw3
        rw [writeValueHashFuel, hashWriter.writeValueHash]
        rw [show writeMapHashFuel g { hw with h := hw.h ++ [valMapPrefix] } m =
            some (hashWriter.writeMapHash { hw with h := hw.h ++ [valMapPrefix] } m) from by
          rw [writeMapHashFuel, hashWriter.writeMapHash]
          exact mapLoopFuel_suff Hv hde (sortKeys (m.map Prod.fst)).length 0
            (sortKeys (m.map Prod.fst)).length (by omega) _]
        cases hwm : hashWriter.writeMapHash { hw with h := hw.h ++ [valMapPrefix] } m with
        | none => rfl
        | some hw2 => rfl

/-- C10: the encoder always terminates, and its recursion depth is exactly
the nesting depth of the input: the fuel-instrumented writer, charged one
unit of fuel per `writeValueHash` invocation, reproduces the unbounded
writer's outcome (including the abort of a panicking run) with fuel equal
to the value's nesting depth, and the key loop of `MapHash` needs one
level more than the deepest entry value; the totality of the unbounded
model itself is certified by its strictly decreasing (size, phase, loop)
termination measure. -/
theorem encoder_terminates_at_nesting_depth (v : Value) (m : List (ByteStr × Value))
    (hw : hashWriter) :
    writeValueHashFuel (depth v) hw v = some (hw.writeValueHash v) ∧
    writeMapHashFuel (depthEntries m + 1) hw m = some (hw.writeMapHash m) := by
  constructor
  · exact writeValueHashFuel_sufficient (depth v) v (le_refl _) hw
  · rw [writeMapHashFuel, hashWriter.writeMapHash]
    exact mapLoopFuel_suff
      (fun v2 h2 hw3 => writeValueHashFuel_sufficient _ v2 h2 hw3) (by omega)
      (sortKeys (m.map Prod.fst)).length 0 (sortKeys (m.map Prod.fst)).length
      (by omega) _

/-! ### Map entry canonicalization -/

/-- The byte stream of a list of map entries taken in the given order: for
each entry the reserved key marker, the raw key bytes, then the entry
value's canonical stream. -/
def entriesStream : List (ByteStr × Value) → List Nat
  | [] => []
  | e :: es => (keyPrefix :: e.1) ++ (valueStream e.2 ++ entriesStream es)

theorem loopStream_as_entries (m : List (ByteStr × Value)) :
    ∀ ks, loopStream ks m = entriesStream (ks.map (fun k => (k, lookupV k m))) := by
  intro ks
  induction ks with
  | nil => simp [entriesStream]
  | cons k ks ih => simp [entriesStream, ih]

/-- Keys absent from `ks` do not change the key loop's lookups. -/
theorem loopStream_skip (k1 : ByteStr) (v1 : Value) (m : List (ByteStr × Value)) :
    ∀ ks, k1 ∉ ks → loopStream ks ((k1, v1) :: m) = loopStream ks m := by
  intro ks
  induction ks with
  | nil => simp
  | cons k ks ih =>
      intro hk
      have hne : k1 ≠ k := fun he => hk (he ▸ List.mem_cons_self k1 ks)
      rw [loopStream_cons, loopStream_cons]
      rw [show lookupV k ((k1, v1) :: m) = lookupV k m from by simp [lookupV, hne]]
      rw [ih (fun hm => hk (List.mem_cons_of_mem k hm))]

/-- Running the key loop over a map's own keys, in stored order, with no
duplicate keys, feeds exactly the entries in stored order. -/
theorem loopStream_self (m : List (ByteStr × Value)) (hnd : (m.map Prod.fst).Nodup) :
    loopStream (m.map Prod.fst) m = entriesStream m := by
  induction m with
  | nil => simp [entriesStream]
  | cons e m ih =>
      rw [List.map_cons, loopStream_cons]
      have hnotin : e.1 ∉ m.map Prod.fst := (List.nodup_cons.mp hnd).1
      have hl : lookupV e.1 (e :: m) = e.2 := by simp [lookupV]
      rw [hl]
      rw [show loopStream (m.map Prod.fst) (e :: m) = loopStream (m.map Prod.fst) m from ?_]
      · rw [ih (List.nodup_cons.mp hnd).2, entriesStream]
      · cases e with
        | mk k1 v1 => exact loopStream_skip k1 v1 m (m.map Prod.fst) hnotin

/-! ### Sorting lemmas -/

/-- Sorting a sorted list changes nothing. -/
theorem sortKeys_of_sorted {ks : List ByteStr} (h : List.Sorted (· ≤ ·) ks) :
    sortKeys ks = ks :=
  List.Sorted.insertionSort_eq h

/-! ### Claim theorems -/

/-- C9: the twelve marker bytes used by the encoder are mutually distinct
single bytes, all in the reserved range 0xF0 to 0xFF. -/
theorem marker_bytes_distinct_reserved :
    List.Nodup [valEmpty, valBytesPrefix, valStrPrefix, valBoolTrue, valBoolFalse,
      valIntPrefix, valDoublePrefix, valMapPrefix, valMapSuffix, valSlicePrefix,
      valSliceSuffix, keyPrefix] ∧
    ∀ b ∈ [valEmpty, valBytesPrefix, valStrPrefix, valBoolTrue, valBoolFalse,
      valIntPrefix, valDoublePrefix, valMapPrefix, valMapSuffix, valSlicePrefix,
      valSliceSuffix, keyPrefix], 0xf0 ≤ b ∧ b ≤ 0xff := by
  decide

/-- C5: `hashSum128` returns exactly 16 bytes; the first 8 are the
finalization of the accumulator's current state, the last 8 the finalization
of the same live accumulator after feeding the one fixed extension byte, and
the accumulator ends extended, not reset. -/
theorem hashSum128_two_finalizations (hw : hashWriter) :
    ((hw.hashSum128).1).length = 16 ∧
    ((hw.hashSum128).1).take 8 = be64 (xxh64 hw.h) ∧
    ((hw.hashSum128).1).drop 8 = be64 (xxh64 (hw.h ++ [extraByte])) ∧
    ((hw.hashSum128).2).h = hw.h ++ [extraByte] := by
  have hlen : ((be64 (xxh64 hw.h)) ++ (be64 (xxh64 (hw.h ++ [extraByte])))).length = 16 := by
    simp [be64]
  have htu : ((be64 (xxh64 hw.h)) ++ (be64 (xxh64 (hw.h ++ [extraByte])))).take 16 =
      (be64 (xxh64 hw.h)) ++ (be64 (xxh64 (hw.h ++ [extraByte]))) :=
    List.take_of_length_le (le_of_eq hlen)
  simp only [hashWriter.hashSum128, hashSumAppend, List.take_zero, List.nil_append]
  refine ⟨by rw [htu, hlen], by rw [htu, List.take_left' (by simp [be64])],
    by rw [htu, List.drop_left' (by simp [be64])], by trivial⟩


/-- C3 counterexample: for the one-entry map {"a": Empty} the stream
digested by `MapHash` is exactly the key-tagged entry
[keyPrefix, 97, valEmpty]: it does not begin with the map-open marker and
does not end with the map-close marker. -/
theorem mapHash_stream_no_open_marker_cex :
    mapHashStream [([97], Value.empty)] = some [keyPrefix, 97, valEmpty] ∧
    ((mapHashStream [([97], Value.empty)]).getD []).head? ≠ some valMapPrefix ∧
    ((mapHashStream [([97], Value.empty)]).getD []).getLast? ≠ some valMapSuffix := by
  have h : mapHashStream [([97], Value.empty)] = some [keyPrefix, 97, valEmpty] := by
    rw [mapHashStream_ok (by rfl), mapStream_eq]
    simp [sortKeys, List.insertionSort, List.orderedInsert, lookupV]
  refine ⟨h, ?_, ?_⟩ <;> rw [h] <;> decide

/-- C3 as amended: on maps whose entry values contain no nested nonempty
maps (so the key loop reads its own sorted keys, see the C1 record for the
other maps), the stream digested by `MapHash` is exactly the sorted
key-tagged entries -- key marker, raw key bytes, encoded value per
entry -- with NO surrounding map-open/map-close markers; those markers are
written only by `writeValueHash` when a map occurs as a value inside
another container. -/
theorem mapHash_stream_bare_sorted_entries (m : List (ByteStr × Value))
    (hm : entriesMapFree m = true) :
    mapHashStream m =
      some (entriesStream ((sortKeys (m.map Prod.fst)).map (fun k => (k, lookupV k m)))) ∧
    valueStream (Value.map m) = valMapPrefix :: (mapStream m ++ [valMapSuffix]) := by
  refine ⟨?_, valueStream_map m⟩
  rw [mapHashStream_ok hm, mapStream_eq, loopStream_as_entries]

/-- Witness for the amended C3 at the one-entry map {"a": Empty}. -/
theorem mapHash_stream_bare_sorted_entries_witness :
    entriesMapFree [([97], Value.empty)] = true ∧
    (mapHashStream [([97], Value.empty)] =
      some (entriesStream ((sortKeys ([([97], Value.empty)].map Prod.fst)).map
        (fun k => (k, lookupV k [([97], Value.empty)])))) ∧
     valueStream (Value.map [([97], Value.empty)]) =
       valMapPrefix :: (mapStream [([97], Value.empty)] ++ [valMapSuffix])) :=
  ⟨by rfl, mapHash_stream_bare_sorted_entries _ (by rfl)⟩

/-- C4 counterexample: hashing the unrecognized variant does not give the
digest of hashing an Empty value. -/
theorem unknown_variant_digest_ne_empty_cex :
    ValueHash Value.unknown ≠ ValueHash Value.empty := by
  rw [ValueHash_ok (by rfl), ValueHash_ok (by rfl)]
  simp only [valueStream_unknown, valueStream_empty, valEmpty, ne_eq, Option.some.injEq]
  decide

/-- C4 as amended: a value variant outside the eight recognized cases
contributes no bytes at all to the stream (the `switch` writes nothing),
so its digest is that of the empty stream, which differs from the digest
of an Empty value (Empty writes its marker byte). -/
theorem unknown_variant_contributes_nothing :
    valueStream Value.unknown = [] ∧
    ValueHash Value.unknown = some (hashStream []) ∧
    ValueHash Value.unknown ≠ ValueHash Value.empty := by
  refine ⟨valueStream_unknown, ?_, ?_⟩
  · rw [ValueHash_ok (by rfl), valueStream_unknown]
  · rw [ValueHash_ok (by rfl), ValueHash_ok (by rfl)]
    simp only [valueStream_unknown, valueStream_empty, valEmpty, ne_eq, Option.some.injEq]
    decide

/-- C8: the empty map (via `MapHash`), the empty slice and the Empty value
(via `ValueHash`) hash to three pairwise distinct digests. -/
theorem empty_container_digests_pairwise_distinct :
    MapHash [] ≠ ValueHash (Value.slice []) ∧
    ValueHash (Value.slice []) ≠ ValueHash Value.empty ∧
    MapHash [] ≠ ValueHash Value.empty := by
  have hm : MapHash [] = some (hashStream []) := by
    rw [MapHash_ok (by rfl)]
    rw [show mapStream [] = [] from by rw [mapStream_eq]; simp [sortKeys, List.insertionSort]]
  have hs : ValueHash (Value.slice []) =
      some (hashStream [valSlicePrefix, valSliceSuffix]) := by
    rw [ValueHash_ok (by rfl)]
    simp
  have he : ValueHash Value.empty = some (hashStream [valEmpty]) := by
    rw [ValueHash_ok (by rfl)]
    simp
  refine ⟨?_, ?_, ?_⟩
  · rw [hm, hs]; simp only [ne_eq, Option.some.injEq]; decide
  · rw [hs, he]; simp only [ne_eq, Option.some.injEq]; decide
  · rw [hm, he]; simp only [ne_eq, Option.some.injEq]; decide

/-! ### Well-formed values and the injectivity of the canonical encoder -/

/-- Payload byte strings that cannot collide with the reserved marker range:
every byte is below 0xf0. -/
def markerFree (s : List Nat) : Prop := ∀ b ∈ s, b < 240

/-- Well-formed values: integers in the int64 range and float bit patterns
inside 64 bits (always true of the Go values), string/bytes payloads and map
keys free of the reserved marker range 0xf0-0xff, recursively well-formed
children, and maps in canonical form: entries strictly sorted by key (hence
no duplicate keys). -/
inductive WFV : Value → Prop
  | empty : WFV .empty
  | bool (b : Bool) : WFV (.bool b)
  | int (i : Int) : -(2 ^ 63) ≤ i → i < 2 ^ 63 → WFV (.int i)
  | double (bits : Nat) : bits < 2 ^ 64 → WFV (.double bits)
  | str (s : ByteStr) : markerFree s → WFV (.str s)
  | bytes (s : ByteStr) : markerFree s → WFV (.bytes s)
  | slice (xs : List Value) : (∀ x ∈ xs, WFV x) → WFV (.slice xs)
  | map (m : List (ByteStr × Value)) :
      List.Pairwise (fun e f => e.1 < f.1) m →
      (∀ e ∈ m, markerFree e.1) →
      (∀ e ∈ m, WFV e.2) → WFV (.map m)

/-- The tag byte each well-formed value's stream starts with. -/
def headTag : Value → Nat
  | .empty => valEmpty
  | .bool b => if b then valBoolTrue else valBoolFalse
  | .int _ => valIntPrefix
  | .double _ => valDoublePrefix
  | .str _ => valStrPrefix
  | .bytes _ => valBytesPrefix
  | .slice _ => valSlicePrefix
  | .map _ => valMapPrefix
  | .unknown => 0

/-- A stream position at which only a marker byte (or the end of the whole
stream) may stand. -/
def Bdry : List Nat → Prop
  | [] => True
  | b :: _ => 240 ≤ b

theorem stream_head {v : Value} (hv : WFV v) : ∃ r, valueStream v = headTag v :: r := by
  cases hv with
  | empty => exact ⟨[], by simp [headTag]⟩
  | bool b => cases b <;> exact ⟨[], by simp [headTag]⟩
  | int i _ _ => exact ⟨le64 (toUint64 i), by simp [headTag]⟩
  | double bits _ => exact ⟨le64 bits, by simp [headTag]⟩
  | str s _ => exact ⟨s, by simp [headTag]⟩
  | bytes s _ => exact ⟨s, by simp [headTag]⟩
  | slice xs _ => exact ⟨sliceStream xs ++ [valSliceSuffix], by simp [headTag]⟩
  | map m _ _ _ => exact ⟨mapStream m ++ [valMapSuffix], by simp [headTag]⟩

theorem headTag_props {v : Value} (hv : WFV v) :
    240 ≤ headTag v ∧ headTag v ≠ 255 ∧ headTag v ≠ 253 ∧ headTag v ≠ 244 := by
  cases hv with
  | bool b => cases b <;> simp [headTag]
  | empty => simp [headTag]
  | int i _ _ => simp [headTag]
  | double bits _ => simp [headTag]
  | str s _ => simp [headTag]
  | bytes s _ => simp [headTag]
  | slice xs _ => simp [headTag]
  | map m _ _ _ => simp [headTag]

theorem bdry_vstream {v : Value} (hv : WFV v) (r : List Nat) :
    Bdry (valueStream v ++ r) := by
  obtain ⟨x, hx⟩ := stream_head hv
  rw [hx, List.cons_append]
  exact (headTag_props hv).1

theorem bdry_slice_cont {xs : List Value} (hxs : ∀ x ∈ xs, WFV x) {c : Nat}
    (hc : 240 ≤ c) (s : List Nat) : Bdry (sliceStream xs ++ c :: s) := by
  cases xs with
  | nil => simpa [Bdry] using hc
  | cons x xs =>
      rw [sliceStream_cons, List.append_assoc]
      exact bdry_vstream (hxs x (List.mem_cons_self x xs)) _

theorem bdry_entries_cont (m : List (ByteStr × Value)) {c : Nat} (hc : 240 ≤ c)
    (s : List Nat) : Bdry (entriesStream m ++ c :: s) := by
  cases m with
  | nil => simpa [entriesStream, Bdry] using hc
  | cons e m =>
      rw [entriesStream, List.cons_append, List.cons_append]
      show 240 ≤ keyPrefix
      simp

/-- Cancellation for marker-free payloads followed by boundary positions. -/
theorem payload_cancel : ∀ p q s t : List Nat, markerFree p → markerFree q →
    Bdry s → Bdry t → p ++ s = q ++ t → p = q ∧ s = t := by
  intro p
  induction p with
  | nil =>
      intro q s t _ hq hs ht h
      cases q with
      | nil => exact ⟨rfl, by simpa using h⟩
      | cons b q =>
          exfalso
          rw [List.nil_append, List.cons_append] at h
          rw [h] at hs
          have hb : b < 240 := hq b (List.mem_cons_self b q)
          have : 240 ≤ b := hs
          omega
  | cons a p ih =>
      intro q s t hp hq hs ht h
      cases q with
      | nil =>
          exfalso
          rw [List.nil_append, List.cons_append] at h
          rw [← h] at ht
          have ha : a < 240 := hp a (List.mem_cons_self a p)
          have : 240 ≤ a := ht
          omega
      | cons b q =>
          rw [List.cons_append, List.cons_append] at h
          obtain ⟨hab, h2⟩ := List.cons.inj h
          obtain ⟨hpq, hst⟩ := ih q s t
            (fun x hx => hp x (List.mem_cons_of_mem a hx))
            (fun x hx => hq x (List.mem_cons_of_mem b hx)) hs ht h2
          exact ⟨by rw [hab, hpq], hst⟩

@[simp] theorem le64_length (x : Nat) : (le64 x).length = 8 := by simp [le64]

/-- `le64` is injective below 2^64. -/
theorem le64_inj {a b : Nat} (ha : a < 18446744073709551616)
    (hb : b < 18446744073709551616) (h : le64 a = le64 b) : a = b := by
  simp only [le64, List.cons.injEq, and_true] at h
  simp only [Nat.shiftRight_eq_div_pow] at h
  omega

theorem toUint64_lt (i : Int) : toUint64 i < 18446744073709551616 := by
  rw [toUint64]
  omega

/-- `uint64` conversion is injective on the int64 range. -/
theorem toUint64_inj {i j : Int} (hi1 : -(2 ^ 63) ≤ i) (hi2 : i < 2 ^ 63)
    (hj1 : -(2 ^ 63) ≤ j) (hj2 : j < 2 ^ 63) (h : toUint64 i = toUint64 j) : i = j := by
  rw [toUint64, toUint64] at h
  omega

/-- Cancellation for slice element lists terminated by the slice-close
marker, given cancellation for the elements. -/
theorem sliceStream_cancel : ∀ (xs : List Value)
    (_ : ∀ x ∈ xs, ∀ (w : Value) (s t : List Nat), WFV x → WFV w → Bdry s → Bdry t →
      valueStream x ++ s = valueStream w ++ t → x = w ∧ s = t)
    (ys : List Value) (s t : List Nat), (∀ x ∈ xs, WFV x) → (∀ y ∈ ys, WFV y) →
    Bdry s → Bdry t →
    sliceStream xs ++ 255 :: s = sliceStream ys ++ 255 :: t → xs = ys ∧ s = t := by
  intro xs
  induction xs with
  | nil =>
      intro VC ys s t hxs hys hs ht heq
      cases ys with
      | nil =>
          rw [sliceStream_nil, List.nil_append, List.nil_append] at heq
          exact ⟨rfl, (List.cons.inj heq).2⟩
      | cons y ys =>
          exfalso
          have hy : WFV y := hys y (List.mem_cons_self y ys)
          obtain ⟨r, hr⟩ := stream_head hy
          rw [sliceStream_nil, List.nil_append, sliceStream_cons, List.append_assoc,
            hr, List.cons_append] at heq
          exact (headTag_props hy).2.1 (List.cons.inj heq).1.symm
  | cons x xs ih =>
      intro VC ys s t hxs hys hs ht heq
      have hx : WFV x := hxs x (List.mem_cons_self x xs)
      cases ys with
      | nil =>
          exfalso
          obtain ⟨r, hr⟩ := stream_head hx
          rw [sliceStream_nil, List.nil_append, sliceStream_cons, List.append_assoc,
            hr, List.cons_append] at heq
          exact (headTag_props hx).2.1 (List.cons.inj heq).1
      | cons y ys =>
          have hy : WFV y := hys y (List.mem_cons_self y ys)
          rw [sliceStream_cons, sliceStream_cons, List.append_assoc, List.append_assoc] at heq
          obtain ⟨hxy, hrest⟩ := VC x (List.mem_cons_self x xs) y
            (sliceStream xs ++ 255 :: s) (sliceStream ys ++ 255 :: t) hx hy
            (bdry_slice_cont (fun z hz => hxs z (List.mem_cons_of_mem x hz)) (by omega) s)
            (bdry_slice_cont (fun z hz => hys z (List.mem_cons_of_mem y hz)) (by omega) t)
            heq
          obtain ⟨hxs2, hst⟩ := ih
            (fun z hz => VC z (List.mem_cons_of_mem x hz))
            ys s t (fun z hz => hxs z (List.mem_cons_of_mem x hz))
            (fun z hz => hys z (List.mem_cons_of_mem y hz)) hs ht hrest
          exact ⟨by rw [hxy, hxs2], hst⟩

/-- Cancellation for key-tagged entry lists terminated by the map-close
marker, given cancellation for the entry values. -/
theorem entriesStream_cancel : ∀ (m1 : List (ByteStr × Value))
    (_ : ∀ e ∈ m1, ∀ (w : Value) (s t : List Nat), WFV e.2 → WFV w → Bdry s → Bdry t →
      valueStream e.2 ++ s = valueStream w ++ t → e.2 = w ∧ s = t)
    (m2 : List (ByteStr × Value)) (s t : List Nat),
    (∀ e ∈ m1, markerFree e.1) → (∀ e ∈ m1, WFV e.2) →
    (∀ e ∈ m2, markerFree e.1) → (∀ e ∈ m2, WFV e.2) →
    Bdry s → Bdry t →
    entriesStream m1 ++ 253 :: s = entriesStream m2 ++ 253 :: t → m1 = m2 ∧ s = t := by
  intro m1
  induction m1 with
  | nil =>
      intro VC m2 s t _ _ hk2 hv2 hs ht heq
      cases m2 with
      | nil =>
          rw [entriesStream, List.nil_append, List.nil_append] at heq
          exact ⟨rfl, (List.cons.inj heq).2⟩
      | cons e m2 =>
          exfalso
          rw [entriesStream, entriesStream, List.nil_append, List.cons_append,
            List.cons_append] at heq
          have h244 := (List.cons.inj heq).1
          simp at h244
  | cons e1 m1 ih =>
      intro VC m2 s t hk1 hv1 hk2 hv2 hs ht heq
      cases m2 with
      | nil =>
          exfalso
          rw [entriesStream, entriesStream, List.nil_append, List.cons_append,
            List.cons_append] at heq
          have h244 := (List.cons.inj heq).1
          simp at h244
      | cons e2 m2 =>
          simp only [entriesStream, List.cons_append, List.append_assoc] at heq
          have h2 := (List.cons.inj heq).2
          have hwf1 : WFV e1.2 := hv1 e1 (List.mem_cons_self e1 m1)
          have hwf2 : WFV e2.2 := hv2 e2 (List.mem_cons_self e2 m2)
          obtain ⟨hk, h3⟩ := payload_cancel e1.1 e2.1 _ _
            (hk1 e1 (List.mem_cons_self e1 m1)) (hk2 e2 (List.mem_cons_self e2 m2))
            (bdry_vstream hwf1 _) (bdry_vstream hwf2 _) h2
          obtain ⟨hvv, h4⟩ := VC e1 (List.mem_cons_self e1 m1) e2.2
            (entriesStream m1 ++ 253 :: s) (entriesStream m2 ++ 253 :: t) hwf1 hwf2
            (bdry_entries_cont m1 (by omega) s) (bdry_entries_cont m2 (by omega) t) h3
          obtain ⟨hm, hst⟩ := ih
            (fun z hz => VC z (List.mem_cons_of_mem e1 hz))
            m2 s t (fun z hz => hk1 z (List.mem_cons_of_mem e1 hz))
            (fun z hz => hv1 z (List.mem_cons_of_mem e1 hz))
            (fun z hz => hk2 z (List.mem_cons_of_mem e2 hz))
            (fun z hz => hv2 z (List.mem_cons_of_mem e2 hz)) hs ht h4
          have hee : e1 = e2 := by
            cases e1
            cases e2
            simp only [Prod.mk.injEq]
            exact ⟨hk, hvv⟩
          exact ⟨by rw [hee, hm], hst⟩

/-- In canonical form (strictly sorted keys) the map stream is the entry
stream in stored order. -/
theorem mapStream_of_canonical {m : List (ByteStr × Value)}
    (hp : List.Pairwise (fun e f => e.1 < f.1) m) : mapStream m = entriesStream m := by
  have hkeys : List.Pairwise (· < ·) (m.map Prod.fst) := (List.pairwise_map).mpr hp
  have hsorted : List.Sorted (· ≤ ·) (m.map Prod.fst) := hkeys.imp le_of_lt
  have hnd : (m.map Prod.fst).Nodup := hkeys.imp ne_of_lt
  rw [mapStream_eq, sortKeys_of_sorted hsorted, loopStream_self m hnd]

/-- Constructor discriminator for values. -/
def ctorIdx : Value → Nat
  | .empty => 0
  | .bool _ => 1
  | .int _ => 2
  | .double _ => 3
  | .str _ => 4
  | .bytes _ => 5
  | .slice _ => 6
  | .map _ => 7
  | .unknown => 8

/-- Recover the constructor from the head tag byte. -/
def tagIdx (c : Nat) : Nat :=
  if c = 245 then 0
  else if c = 248 ∨ c = 249 then 1
  else if c = 250 then 2
  else if c = 251 then 3
  else if c = 247 then 4
  else if c = 246 then 5
  else if c = 254 then 6
  else if c = 252 then 7
  else 8

theorem tagIdx_headTag {v : Value} (hv : WFV v) : tagIdx (headTag v) = ctorIdx v := by
  cases hv
  case bool b => cases b <;> rfl
  all_goals rfl

/-- The heart of injectivity: well-formed value streams cancel against any
boundary continuation. -/
theorem valueStream_cancel_aux : ∀ n (v w : Value) (s t : List Nat), sizeOf v ≤ n →
    WFV v → WFV w → Bdry s → Bdry t →
    valueStream v ++ s = valueStream w ++ t → v = w ∧ s = t := by
  intro n
  induction n using Nat.strong_induction_on with
  | _ n IH =>
    intro v w s t hsz hv hw hs ht heq
    have htag : headTag v = headTag w := by
      obtain ⟨rv, hrv⟩ := stream_head hv
      obtain ⟨rw1, hrw1⟩ := stream_head hw
      rw [hrv, hrw1, List.cons_append, List.cons_append] at heq
      exact (List.cons.inj heq).1
    have hidx : ctorIdx v = ctorIdx w := by
      rw [← tagIdx_headTag hv, ← tagIdx_headTag hw, htag]
    cases hv <;> cases hw <;> try (exfalso; simp [ctorIdx] at hidx; done)
    · exact ⟨rfl, by simpa using heq⟩
    · rename_i b c
      cases b <;> cases c
      · exact ⟨rfl, by simpa using heq⟩
      · exfalso; simp [headTag] at htag
      · exfalso; simp [headTag] at htag
      · exact ⟨rfl, by simpa using heq⟩
    · rename_i i hi1 hi2 j hj1 hj2
      simp only [valueStream_int, List.cons_append, valIntPrefix] at heq
      obtain ⟨hle, hst⟩ := List.append_inj (List.cons.inj heq).2 (by simp)
      exact ⟨by
        rw [toUint64_inj hi1 hi2 hj1 hj2 (le64_inj (toUint64_lt i) (toUint64_lt j) hle)],
        hst⟩
    · rename_i bits1 hb1 bits2 hb2
      simp only [valueStream_double, List.cons_append, valDoublePrefix] at heq
      obtain ⟨hle, hst⟩ := List.append_inj (List.cons.inj heq).2 (by simp)
      exact ⟨by rw [le64_inj (by omega) (by omega) hle], hst⟩
    · rename_i p hp q hq
      simp only [valueStream_str, List.cons_append, valStrPrefix] at heq
      obtain ⟨hpq, hst⟩ := payload_cancel p q s t hp hq hs ht (List.cons.inj heq).2
      exact ⟨by rw [hpq], hst⟩
    · rename_i p hp q hq
      simp only [valueStream_bytes, List.cons_append, valBytesPrefix] at heq
      obtain ⟨hpq, hst⟩ := payload_cancel p q s t hp hq hs ht (List.cons.inj heq).2
      exact ⟨by rw [hpq], hst⟩
    · rename_i xs hxs ys hys
      simp only [valueStream_slice, List.cons_append, List.append_assoc,
        List.singleton_append, valSlicePrefix, valSliceSuffix] at heq
      have h2 := (List.cons.inj heq).2
      have hszx : sizeOf (Value.slice xs) = 1 + sizeOf xs := by simp
      have VC : ∀ x ∈ xs, ∀ (w2 : Value) (s2 t2 : List Nat), WFV x → WFV w2 →
          Bdry s2 → Bdry t2 → valueStream x ++ s2 = valueStream w2 ++ t2 →
          x = w2 ∧ s2 = t2 := by
        intro x hx w2 s2 t2 hx2 hw2 hs2 ht2 heq2
        have hlt : sizeOf x < sizeOf xs := List.sizeOf_lt_of_mem hx
        exact IH (n - 1) (by omega) x w2 s2 t2 (by omega) hx2 hw2 hs2 ht2 heq2
      obtain ⟨hxy, hst⟩ := sliceStream_cancel xs VC ys s t hxs hys hs ht h2
      exact ⟨by rw [hxy], hst⟩
    · rename_i m1 hp1 hk1 hv1 m2 hp2 hk2 hv2
      simp only [valueStream_map, List.cons_append, List.append_assoc,
        List.singleton_append, valMapPrefix, valMapSuffix] at heq
      rw [mapStream_of_canonical hp1, mapStream_of_canonical hp2] at heq
      have h2 := (List.cons.inj heq).2
      have hszm : sizeOf (Value.map m1) = 1 + sizeOf m1 := by simp
      have VC : ∀ e ∈ m1, ∀ (w2 : Value) (s2 t2 : List Nat), WFV e.2 → WFV w2 →
          Bdry s2 → Bdry t2 → valueStream e.2 ++ s2 = valueStream w2 ++ t2 →
          e.2 = w2 ∧ s2 = t2 := by
        intro e he w2 s2 t2 he2 hw2 hs2 ht2 heq2
        have hlt : sizeOf e < sizeOf m1 := List.sizeOf_lt_of_mem he
        have hes : sizeOf e.2 < sizeOf e := by
          cases e with
          | mk a b => simp
        exact IH (n - 1) (by omega) e.2 w2 s2 t2 (by omega) he2 hw2 hs2 ht2 heq2
      obtain ⟨hm, hst⟩ := entriesStream_cancel m1 VC m2 s t hk1 hv1 hk2 hv2 hs ht h2
      exact ⟨by rw [hm], hst⟩

/-- C2 counterexample: two distinct values whose byte payloads contain a
byte in the reserved marker range 0xf0-0xff feed byte-identical streams to
the digest engine, hence collide: a slice holding the one-byte byte-string
[0xf8] is indistinguishable from a slice holding the empty byte-string
followed by the boolean true. -/
theorem stream_collision_with_marker_payload :
    Value.slice [Value.bytes [248]] ≠ Value.slice [Value.bytes [], Value.bool true] ∧
    valueStream (Value.slice [Value.bytes [248]]) =
      valueStream (Value.slice [Value.bytes [], Value.bool true]) ∧
    ValueHash (Value.slice [Value.bytes [248]]) =
      ValueHash (Value.slice [Value.bytes [], Value.bool true]) := by
  have hvs : valueStream (Value.slice [Value.bytes [248]]) =
      valueStream (Value.slice [Value.bytes [], Value.bool true]) := by simp
  refine ⟨by intro h; simp at h, hvs, ?_⟩
  rw [ValueHash_ok (by rfl), ValueHash_ok (by rfl), hvs]

/-- C2 as amended: on well-formed values -- payloads and map keys free of
the reserved marker range 0xF0-0xFF, maps in strictly-sorted canonical
form -- whose hashing does not trip the key-loop clobber (no map entry
value contains a nested nonempty map), the byte stream the program feeds
to the digest is injective: distinct such values feed distinct streams.
Without the marker-range restriction injectivity fails
(the marker-payload counterexample), and outside the clobber-free inputs
the program reads corrupted keys or aborts (C1 record). -/
theorem valueStream_injective_on_wellformed (v w : Value) (hv : WFV v) (hw : WFV w)
    (hcv : clobberFree v = true) (hcw : clobberFree w = true) (hne : v ≠ w) :
    valueHashStream v ≠ valueHashStream w := by
  rw [valueHashStream_ok hcv, valueHashStream_ok hcw]
  intro heq
  rw [Option.some.injEq] at heq
  apply hne
  exact (valueStream_cancel_aux (sizeOf v) v w [] [] (Nat.le_refl _) hv hw trivial trivial
    (by simpa using heq)).1

/-- Witness for C2: two small well-formed clobber-free values with
distinct fed streams. -/
theorem valueStream_injective_on_wellformed_witness :
    (WFV (Value.str [104, 105]) ∧ WFV (Value.bytes [104, 105]) ∧
      clobberFree (Value.str [104, 105]) = true ∧
      clobberFree (Value.bytes [104, 105]) = true ∧
      Value.str [104, 105] ≠ Value.bytes [104, 105]) ∧
    valueHashStream (Value.str [104, 105]) ≠ valueHashStream (Value.bytes [104, 105]) :=
  ⟨⟨WFV.str [104, 105] (by intro b hb; simp at hb; omega),
    WFV.bytes [104, 105] (by intro b hb; simp at hb; omega), by rfl, by rfl,
    by intro h; simp at h⟩,
   valueStream_injective_on_wellformed (Value.str [104, 105]) (Value.bytes [104, 105])
     (WFV.str [104, 105] (by intro b hb; simp at hb; omega))
     (WFV.bytes [104, 105] (by intro b hb; simp at hb; omega))
     (by rfl) (by rfl) (by intro h; simp at h)⟩

/-! ### NaN bit patterns (supporting results) -/

/-- The 64-bit patterns that are IEEE-754 NaNs: exponent bits all ones and a
non-zero mantissa. -/
def isNaNBits (b : Nat) : Prop :=
  b < 18446744073709551616 ∧ (b >>> 52) % 2048 = 2047 ∧ b % 4503599627370496 ≠ 0

/-- Distinct NaN bit patterns feed distinct byte streams to the digest
engine: a Double is encoded as the double marker plus the 8-byte
little-endian bit pattern, so values are distinguished by bit pattern, not
numeric equality. -/
theorem nan_bit_patterns_distinct_streams (b1 b2 : Nat) (h1 : isNaNBits b1)
    (h2 : isNaNBits b2) (hne : b1 ≠ b2) :
    valueStream (Value.double b1) ≠ valueStream (Value.double b2) := by
  simp only [valueStream_double, valDoublePrefix]
  intro h
  exact hne (le64_inj h1.1 h2.1 (List.cons.inj h).2)

/-- Two concrete NaN bit patterns (the quiet NaN and the same with one
mantissa bit flipped) produce different 16-byte digests. -/
theorem nan_digest_concrete_ne :
    isNaNBits 0x7ff8000000000000 ∧ isNaNBits 0x7ff8000000000001 ∧
    ValueHash (Value.double 0x7ff8000000000000) ≠
      ValueHash (Value.double 0x7ff8000000000001) := by
  refine ⟨by constructor <;> decide, by constructor <;> decide, ?_⟩
  rw [ValueHash_ok (by rfl), ValueHash_ok (by rfl)]
  simp only [valueStream_double, valDoublePrefix, ne_eq, Option.some.injEq]
  decide
